import Mathlib

/-!
# Verification of the base.gov.pt Smart-City contract scraper

Shallow embedding of `src/scraper.py` (class `BaseGovAPIScraper` and
`RateLimiter`).  Text is modelled as `List Char`; machine reals used for
prices are modelled as `ℚ`; the `pd.to_numeric(..., errors='coerce')` /
`pd.to_datetime(..., errors='coerce')` results are modelled as `Option`
values (`none` = NaN/NaT).
-/

namespace Scraper

/-! ## Text normalisation (`BaseGovAPIScraper._normalize_text`)

The Python code performs `unicodedata.normalize('NFKD', s).encode('ascii',
'ignore').decode('ascii')`, then lowercases, then replaces every run of
characters outside `[a-z0-9]` by a single space and strips the ends.
`asciiFold` models the NFKD-decompose-then-drop-non-ASCII step: ASCII
characters are kept, Latin-1 accented letters (the ones that occur in the
configured district names and keyword list) decompose to their base letter,
and every other non-ASCII character is dropped. -/

def asciiFold (c : Char) : List Char :=
  if c.toNat < 128 then [c]
  else if c ∈ ['á', 'à', 'â', 'ã', 'ä'] then ['a']
  else if c ∈ ['Á', 'À', 'Â', 'Ã', 'Ä'] then ['A']
  else if c ∈ ['é', 'è', 'ê', 'ë'] then ['e']
  else if c ∈ ['É', 'È', 'Ê', 'Ë'] then ['E']
  else if c ∈ ['í', 'ì', 'î', 'ï'] then ['i']
  else if c ∈ ['Í', 'Ì', 'Î', 'Ï'] then ['I']
  else if c ∈ ['ó', 'ò', 'ô', 'õ', 'ö'] then ['o']
  else if c ∈ ['Ó', 'Ò', 'Ô', 'Õ', 'Ö'] then ['O']
  else if c ∈ ['ú', 'ù', 'û', 'ü'] then ['u']
  else if c ∈ ['Ú', 'Ù', 'Û', 'Ü'] then ['U']
  else if c = 'ç' then ['c']
  else if c = 'Ç' then ['C']
  else if c = 'ñ' then ['n']
  else if c = 'Ñ' then ['N']
  else []

def isLowerAlnum (c : Char) : Bool :=
  ('a' ≤ c && c ≤ 'z') || ('0' ≤ c && c ≤ '9')

/-- Collapse consecutive spaces into one (the effect of
`re.sub(r'[^a-z0-9]+', ' ', s)` after every non-alphanumeric character has
been mapped to a single space). -/
def squeezeSpaces : List Char → List Char
  | [] => []
  | [c] => [c]
  | a :: b :: rest =>
    if a = ' ' && b = ' ' then squeezeSpaces (b :: rest)
    else a :: squeezeSpaces (b :: rest)

/-- Drop the characters satisfying `p` from both ends (Python `str.strip`). -/
def stripEnds (p : Char → Bool) (s : List Char) : List Char :=
  ((s.dropWhile p).reverse.dropWhile p).reverse

/-- `BaseGovAPIScraper._normalize_text`.  The `if not s: return ''` guard is
the identity on the empty list. -/
def normalizeText (s : List Char) : List Char :=
  let folded := (s.map asciiFold).flatten.map Char.toLower
  let spaced := folded.map (fun c => if isLowerAlnum c then c else ' ')
  stripEnds (fun c => c = ' ') (squeezeSpaces spaced)

/-! ## The normalized-district table

`__init__` builds `self.normalized_districts = {normalize(name): name for
name in districts}` — a Python dict comprehension: later duplicate keys
overwrite the value but keep the original insertion position, and iteration
order is insertion order.  We model the dict as an association list built by
`dictInsert`. -/

def dictInsert (m : List (List Char × List Char)) (k v : List Char) :
    List (List Char × List Char) :=
  if m.any (fun kv => kv.1 == k) then
    m.map (fun kv => if kv.1 == k then (k, v) else kv)
  else m ++ [(k, v)]

def mkNormalizedDistricts (names : List (List Char)) :
    List (List Char × List Char) :=
  names.foldl (fun m n => dictInsert m (normalizeText n) n) []

/-! ## `BaseGovAPIScraper._find_actual_district` -/

def isSep (c : Char) : Bool :=
  c = ',' || c = ';' || c = '/' || c = '|'

/-- `re.split(r'[,;/|]+', s)`: split on maximal runs of separators, keeping
empty fragments at the ends (`re.split` on `''` yields `['']`). -/
def splitParts : List Char → List (List Char)
  | [] => [[]]
  | c :: cs =>
    let r := splitParts cs
    if isSep c then
      match cs with
      | d :: _ => if isSep d then r else [] :: r
      | [] => [] :: r
    else
      match r with
      | f :: rest => (c :: f) :: rest
      | [] => [[c]]

/-- Python regex `\b` word characters (for the ASCII strings produced by
`_normalize_text` only lowercase letters and digits occur). -/
def pyWordChar (c : Char) : Bool :=
  ('a' ≤ c && c ≤ 'z') || ('A' ≤ c && c ≤ 'Z') || ('0' ≤ c && c ≤ '9') || c = '_'

def wordAt (hay : List Char) (i : Nat) : Bool :=
  match hay.drop i with
  | [] => false
  | c :: _ => pyWordChar c

/-- A `\b` word boundary of Python `re` at position `i` of `hay`. -/
def boundaryAt (hay : List Char) (i : Nat) : Bool :=
  (if i = 0 then false else wordAt hay (i - 1)) != wordAt hay i

def matchesAt (pat hay : List Char) (i : Nat) : Bool :=
  ((hay.drop i).take pat.length == pat) && boundaryAt hay i
    && boundaryAt hay (i + pat.length)

/-- `re.search(r'\b' + re.escape(pat) + r'\b', hay) is not None`.  After
`re.escape` the pattern matches `pat` literally. -/
def containsWord (pat hay : List Char) : Bool :=
  (List.range (hay.length + 1)).any (matchesAt pat hay)

/-- Python `n in dict` / `dict[n]` on the normalized-district table. -/
def lookupNorm (table : List (List Char × List Char)) (key : List Char) :
    Option (List Char) :=
  (table.find? (fun kv => kv.1 == key)).map Prod.snd

/-- `BaseGovAPIScraper._find_actual_district`: empty-input guard, then the
fragment loop (first fragment whose normalization is a dict key), then the
whole-string word-bounded search over the table in insertion order. -/
def findActualDistrict (table : List (List Char × List Char))
    (place : List Char) : List Char :=
  if place = [] then []
  else
    match (splitParts place).findSome?
        (fun part => lookupNorm table (normalizeText part)) with
    | some v => v
    | none =>
      match table.findSome?
          (fun kv => if containsWord kv.1 (normalizeText place) then some kv.2
                     else none) with
      | some v => v
      | none => []

/-- The district-resolution procedure as the specification words it: split on
comma/semicolon/slash/pipe, return the canonical name of the first fragment
whose normalization is an exact key of the table; otherwise search the
normalized whole string for the first table entry whose normalized name
occurs as a bounded (whole-word) match; otherwise return empty.  (The spec
does not mention the source's separate empty-input guard.) -/
def findDistrictSpec (table : List (List Char × List Char))
    (place : List Char) : List Char :=
  match (splitParts place).findSome?
      (fun part => lookupNorm table (normalizeText part)) with
  | some v => v
  | none =>
    match table.findSome?
        (fun kv => if containsWord kv.1 (normalizeText place) then some kv.2
                   else none) with
    | some v => v
    | none => []

/-- The district configuration of the program (`districts_to_search` keys;
the numeric ids only parameterize the search query, not the table). -/
def districtNamesConfig : List (List Char) :=
  ["Aveiro".data, "Castelo Branco".data, "Coimbra".data, "Guarda".data,
   "Leiria".data, "Viseu".data]

def districtTableConfig : List (List Char × List Char) :=
  mkNormalizedDistricts districtNamesConfig

/-! ## Price parsing (`run`, lines 284–288)

`raw.replace('€', '').replace('.', '').replace(',', '.').strip()` followed by
`pd.to_numeric(..., errors='coerce')`.  The numeric parse accepts an optional
sign, an integer and/or fractional part (at least one digit overall) and an
optional exponent; everything else coerces to NaN, modelled as `none`. -/

def pyIsSpace (c : Char) : Bool :=
  c = ' ' || c = '\t' || c = '\n' || c = '\r' || c = '\x0b' || c = '\x0c'

def isDigitChar (c : Char) : Bool := '0' ≤ c && c ≤ '9'

def digitVal (c : Char) : ℕ := c.toNat - '0'.toNat

def natOfDigits (ds : List Char) : ℕ :=
  ds.foldl (fun acc c => 10 * acc + digitVal c) 0

def parseExp (s : List Char) : Option ℤ :=
  match s with
  | '+' :: ds =>
    if ds ≠ [] ∧ ds.all isDigitChar then some (natOfDigits ds) else none
  | '-' :: ds =>
    if ds ≠ [] ∧ ds.all isDigitChar then some (-(natOfDigits ds : ℤ)) else none
  | ds =>
    if ds ≠ [] ∧ ds.all isDigitChar then some (natOfDigits ds) else none

def parseUnsigned (s : List Char) : Option ℚ :=
  let intPart := s.takeWhile isDigitChar
  let rest1 := s.dropWhile isDigitChar
  let hasDot : Bool := match rest1 with | '.' :: _ => true | _ => false
  let afterDot := if hasDot then rest1.tail else rest1
  let fracPart := if hasDot then afterDot.takeWhile isDigitChar else []
  let rest2 := if hasDot then afterDot.dropWhile isDigitChar else rest1
  if intPart.length + fracPart.length = 0 then none
  else
    let mant : ℚ := (natOfDigits intPart : ℚ) +
      (natOfDigits fracPart : ℚ) / (10 : ℚ) ^ fracPart.length
    match rest2 with
    | [] => some mant
    | 'e' :: es => (parseExp es).map (fun e => mant * (10 : ℚ) ^ e)
    | 'E' :: es => (parseExp es).map (fun e => mant * (10 : ℚ) ^ e)
    | _ => none

/-- `pd.to_numeric(s, errors='coerce')` on a string: `none` is NaN. -/
def toNumericCoerce (s : List Char) : Option ℚ :=
  match s with
  | '-' :: rest => (parseUnsigned rest).map (fun q => -q)
  | '+' :: rest => parseUnsigned rest
  | _ => parseUnsigned s

/-- `str.replace(a, b)` for one-character `a`, `b`. -/
def replaceChar (a b : Char) (s : List Char) : List Char :=
  s.map (fun c => if c = a then b else c)

/-- `str.replace(a, '')` for a one-character `a`. -/
def removeChar (a : Char) (s : List Char) : List Char :=
  s.filter (fun c => c != a)

/-- The price computation of `run` lines 284–288 applied to the raw string. -/
def parsePrice (raw : List Char) : Option ℚ :=
  toNumericCoerce
    (stripEnds pyIsSpace (replaceChar ',' '.' (removeChar '.' (removeChar '€' raw))))

/-- `str(details_json.get('initialContractualPrice', '0'))`: the raw price
string, defaulting to `"0"` when the field is absent. -/
def initialPriceRaw (field : Option (List Char)) : List Char :=
  match field with
  | some v => v
  | none => "0".data

/-- The `Valor (€)` value a record gets in `run`. -/
def contractValue (field : Option (List Char)) : Option ℚ :=
  parsePrice (initialPriceRaw field)

/-! ## `BaseGovAPIScraper._join_unique_keywords`

`sorted(kw_set, key=self._normalize_keyword)` is Python's stable sort by the
normalized key (keys compared as strings, i.e. lexicographically by code
point); the loop then keeps the first keyword of each nonempty normalized
key and joins with `' | '`.  The set's iteration order is arbitrary, so the
input is modelled as an arbitrary list. -/

/-- Lexicographic (code-point) comparison of Python strings. -/
def lexLe : List Char → List Char → Bool
  | [], _ => true
  | _ :: _, [] => false
  | a :: as, b :: bs =>
    if a.toNat < b.toNat then true
    else if b.toNat < a.toNat then false
    else lexLe as bs

/-- `BaseGovAPIScraper._normalize_keyword` delegates to `_normalize_text`. -/
def normKeyword (kw : List Char) : List Char := normalizeText kw

/-- `sorted(kw_set, key=self._normalize_keyword)`: stable sort by key. -/
def sortedByKey (kws : List (List Char)) : List (List Char) :=
  kws.mergeSort (fun a b => lexLe (normKeyword a) (normKeyword b))

/-- The `seen`-set loop of `_join_unique_keywords`: keep the first keyword of
each nonempty normalized key. -/
def dedupByNormKey (seen : List (List Char)) :
    List (List Char) → List (List Char)
  | [] => []
  | kw :: rest =>
    if normKeyword kw == [] || seen.contains (normKeyword kw) then
      dedupByNormKey seen rest
    else kw :: dedupByNormKey (normKeyword kw :: seen) rest

def joinUniqueList (kws : List (List Char)) : List (List Char) :=
  dedupByNormKey [] (sortedByKey kws)

/-- `BaseGovAPIScraper._join_unique_keywords`. -/
def joinUniqueKeywords (kws : List (List Char)) : List Char :=
  List.intercalate " | ".data (joinUniqueList kws)

/-! ## `BaseGovAPIScraper._discover_contract_ids`

A search response is modelled by `pages : ℕ → List (Option ℕ)`: the page's
`items` array, each item's `'id'` value (`none` models an item without an
`'id'` key); a missing or null `items` field behaves like the empty list
(both are falsy in `if items:`).  The `while True` loop requests page `p`,
then stops if `items` is falsy, stops if `len(items) < PAGE_SIZE`, and
otherwise continues with page `p + 1`.  The source loop is unbounded, so the
model takes a `fuel` bound and the theorems quantify within it. -/

def PAGE_SIZE : ℕ := 100

/-- The pages `_discover_contract_ids` requests, starting from page `p`. -/
def discoverPages (pages : ℕ → List (Option ℕ)) : ℕ → ℕ → List ℕ
  | 0, _ => []
  | fuel + 1, p =>
    p :: (if (pages p).length = 0 then []
          else if (pages p).length < PAGE_SIZE then []
          else discoverPages pages fuel (p + 1))

/-- The id set `_discover_contract_ids` accumulates (a Python `set`). -/
def discoverIds (pages : ℕ → List (Option ℕ)) : ℕ → ℕ → Finset ℕ
  | 0, _ => ∅
  | fuel + 1, p =>
    if (pages p).length = 0 then ∅
    else
      (pages p).foldl
        (fun acc it => match it with | some i => insert i acc | none => acc) ∅
      ∪ (if (pages p).length < PAGE_SIZE then ∅
         else discoverIds pages fuel (p + 1))

/-- Concrete response oracle used to witness the pagination claims: page 0
has exactly 100 items, page 1 has 37. -/
def pagesWitness : ℕ → List (Option ℕ) :=
  fun p => if p = 0 then List.replicate 100 (some 0)
           else List.replicate 37 (some 1)

/-! ## `BaseGovAPIScraper.save_to_csv`

A record is the dict built in `run` (one per surviving contract).
`save_to_csv` returns early on empty input (no file is created); otherwise
it drops duplicate `'ID Contrato'` rows keeping the first, sorts by the
publication date parsed with `pd.to_datetime(..., format='%d/%m/%Y',
errors='coerce')` in descending order with unparseable dates (NaT) last, and
writes a fixed header plus the rows.  `none` models the early return (no
file, not even a header-only one). -/

structure ReportRecord where
  distrito : List Char
  municipio : List Char
  palavraChave : List Char
  objeto : List Char
  entidadeContratante : List Char
  adjudicatario : List Char
  valor : Option ℚ
  dataContrato : List Char
  publicacao : List Char
  link : List Char
  idContrato : List Char
deriving DecidableEq

def isLeapYear (y : ℕ) : Bool :=
  (y % 4 = 0 && y % 100 ≠ 0) || y % 400 = 0

def daysInMonth (y m : ℕ) : ℕ :=
  if m = 2 then (if isLeapYear y then 29 else 28)
  else if m = 4 || m = 6 || m = 9 || m = 11 then 30 else 31

/-- `pd.to_datetime(s, format='%d/%m/%Y', errors='coerce')`, the parsed date
encoded as `y*10000 + m*100 + d` so that `≤` is chronological order; `none`
is NaT.  `%d` and `%m` accept one or two digits, `%Y` exactly four; invalid
calendar dates coerce to NaT. -/
def parseDateKey (s : List Char) : Option ℕ :=
  match List.splitOn '/' s with
  | [ds, ms, ys] =>
    if ds ≠ [] ∧ ds.length ≤ 2 ∧ ds.all isDigitChar ∧
        ms ≠ [] ∧ ms.length ≤ 2 ∧ ms.all isDigitChar ∧
        ys.length = 4 ∧ ys.all isDigitChar then
      if 1 ≤ natOfDigits ms ∧ natOfDigits ms ≤ 12 ∧ 1 ≤ natOfDigits ds ∧
          natOfDigits ds ≤ daysInMonth (natOfDigits ys) (natOfDigits ms) then
        some (natOfDigits ys * 10000 + natOfDigits ms * 100 + natOfDigits ds)
      else none
    else none
  | _ => none

/-- The row order produced by `df.sort_values(by=['_pub_dt'],
ascending=False)`: parsed publication date descending, NaT last
(`na_position` defaults to `'last'`). -/
def optKeyLe : Option ℕ → Option ℕ → Bool
  | some x, some y => decide (y ≤ x)
  | some _, none => true
  | none, some _ => false
  | none, none => true

def rowLe (a b : ReportRecord) : Bool :=
  optKeyLe (parseDateKey a.publicacao) (parseDateKey b.publicacao)

/-- `df.sort_values(by=['_pub_dt'], ascending=False)`.  pandas' default
`kind='quicksort'` leaves the relative order of equal keys unspecified; the
model fixes one refinement (a stable merge sort).  Only permutation and
ordering facts — true of every refinement — are used in the claims below. -/
def sortRows (rows : List ReportRecord) : List ReportRecord :=
  rows.mergeSort rowLe

def dropDupAux (seen : List (List Char)) :
    List ReportRecord → List ReportRecord
  | [] => []
  | r :: rs =>
    if seen.contains r.idContrato then dropDupAux seen rs
    else r :: dropDupAux (r.idContrato :: seen) rs

/-- `df.drop_duplicates(subset=['ID Contrato'], keep='first')`. -/
def dropDuplicatesById (rows : List ReportRecord) : List ReportRecord :=
  dropDupAux [] rows

structure CsvFile where
  header : List (List Char)
  rows : List ReportRecord
deriving DecidableEq

def csvHeaders : List (List Char) :=
  ["Distrito".data, "Município".data, "Palavra-Chave Encontrada".data,
   "Objeto do Contrato".data, "Entidade Contratante".data,
   "Adjudicatário".data, "Valor (€)".data, "Data do Contrato".data,
   "Publicação".data, "Link".data, "ID Contrato".data]

/-- `BaseGovAPIScraper.save_to_csv`. -/
def saveToCsv (data : List ReportRecord) : Option CsvFile :=
  if data = [] then none
  else some ⟨csvHeaders, sortRows (dropDuplicatesById data)⟩

/-! ## `RateLimiter.wait`

`wait()` is a no-op when `min_interval <= 0` (it returns without touching
`_last_ts`).  Otherwise it reads `now = time.monotonic()`, computes
`base_sleep = max(0, min_interval - (now - _last_ts))`, draws a jitter in
`[0, jitter_max]`, sleeps `base_sleep + jitter`, and stores the post-sleep
`time.monotonic()` in `_last_ts`.  Time is modelled by `ℚ`; a call is
parameterized by the clock value at entry and the drawn jitter, and its
completion time is the post-sleep instant (any extra scheduler delay would
only increase the elapsed time, so the lower bound is unaffected).
`_last_ts` starts at `0.0`. -/

def waitStep (minInterval last now jitter : ℚ) : ℚ × ℚ :=
  if minInterval ≤ 0 then (now, last)
  else (now + (max 0 (minInterval - (now - last)) + jitter),
        now + (max 0 (minInterval - (now - last)) + jitter))

/-- State after the calls `0, 1, …, n`: first component the completion time
of call `n`, second the stored `_last_ts`. -/
def rlRun (minInterval : ℚ) (now jit : ℕ → ℚ) : ℕ → ℚ × ℚ
  | 0 => waitStep minInterval 0 (now 0) (jit 0)
  | n + 1 =>
    waitStep minInterval (rlRun minInterval now jit n).2 (now (n + 1))
      (jit (n + 1))

/-- The instant at which the `n`-th `wait()` call returns. -/
def completionTime (minInterval : ℚ) (now jit : ℕ → ℚ) (n : ℕ) : ℚ :=
  (rlRun minInterval now jit n).1

/-- Clock oracle used to witness the rate-limiter claim. -/
def nowW : ℕ → ℚ := fun n => 3 * n

/-- Jitter oracle used to witness the rate-limiter claim. -/
def jitW : ℕ → ℚ := fun _ => 0

/-- Witness record; shares its contract id with `recordW2`. -/
def recordW1 : ReportRecord :=
  ⟨"Aveiro".data, "Aveiro, Ílhavo".data, "IoT".data, "Obj1".data, "E1".data,
   "A1".data, none, "01/02/2021".data, "03/02/2021".data, "L1".data,
   "C-1".data⟩

/-- Witness record; shares its contract id with `recordW1`. -/
def recordW2 : ReportRecord :=
  ⟨"Coimbra".data, "Coimbra".data, "GIS".data, "Obj2".data, "E2".data,
   "A2".data, none, "02/02/2021".data, "04/02/2021".data, "L2".data,
   "C-1".data⟩

/-! ## Helper lemmas for C1 -/

theorem snd_mem_of_mem_dictInsert {m : List (List Char × List Char)}
    {k v : List Char} {kv : List Char × List Char}
    (h : kv ∈ dictInsert m k v) : kv.2 ∈ m.map Prod.snd ∨ kv.2 = v := by
  unfold dictInsert at h
  by_cases hc : (m.any fun kv => kv.1 == k) = true
  · rw [if_pos hc] at h
    obtain ⟨p, hp, hpe⟩ := List.mem_map.mp h
    by_cases hk : (p.1 == k) = true
    · rw [if_pos hk] at hpe
      right; rw [← hpe]
    · rw [if_neg hk] at hpe
      left; exact List.mem_map.mpr ⟨p, hp, by rw [hpe]⟩
  · rw [if_neg hc] at h
    rcases List.mem_append.mp h with h' | h'
    · left; exact List.mem_map.mpr ⟨kv, h', rfl⟩
    · right; rw [List.mem_singleton.mp h']

theorem snd_mem_of_mem_foldl (names : List (List Char))
    (m : List (List Char × List Char)) (kv : List Char × List Char)
    (h : kv ∈ names.foldl (fun m n => dictInsert m (normalizeText n) n) m) :
    kv.2 ∈ m.map Prod.snd ∨ kv.2 ∈ names := by
  induction names generalizing m with
  | nil => simp only [List.foldl_nil] at h; left
           exact List.mem_map.mpr ⟨kv, h, rfl⟩
  | cons n ns ih =>
    simp only [List.foldl_cons] at h
    rcases ih _ h with h' | h'
    · rcases List.mem_map.mp h' with ⟨p, hp, hpe⟩
      rcases snd_mem_of_mem_dictInsert hp with h'' | h''
      · left; rw [← hpe]; exact h''
      · right; rw [← hpe, h'']; exact List.mem_cons_self n ns
    · right; exact List.mem_cons_of_mem n h'

theorem snd_mem_of_mem_mkNormalizedDistricts {names : List (List Char)}
    {kv : List Char × List Char} (h : kv ∈ mkNormalizedDistricts names) :
    kv.2 ∈ names := by
  rcases snd_mem_of_mem_foldl names [] kv h with h' | h'
  · simp at h'
  · exact h'

/-- The result of `_find_actual_district` is empty or a value of the table. -/
theorem findActualDistrict_mem_values (table : List (List Char × List Char))
    (place : List Char) :
    findActualDistrict table place = [] ∨
      findActualDistrict table place ∈ table.map Prod.snd := by
  unfold findActualDistrict
  by_cases hp : place = []
  · rw [if_pos hp]; left; rfl
  · rw [if_neg hp]
    rcases hs : (splitParts place).findSome?
        (fun part => lookupNorm table (normalizeText part)) with _ | v
    · rcases hw : table.findSome?
          (fun kv => if containsWord kv.1 (normalizeText place) then some kv.2
                     else none) with _ | w
      · rw [hw]; left; rfl
      · rw [hw]; right
        obtain ⟨kv, hkv, hkve⟩ := List.exists_of_findSome?_eq_some hw
        by_cases hc : containsWord kv.1 (normalizeText place) = true
        · rw [if_pos hc] at hkve
          injection hkve with hkve
          show w ∈ _
          rw [← hkve]; exact List.mem_map.mpr ⟨kv, hkv, rfl⟩
        · rw [if_neg hc] at hkve; exact absurd hkve (by simp)
    · right
      show v ∈ _
      obtain ⟨part, _, hpe⟩ := List.exists_of_findSome?_eq_some hs
      unfold lookupNorm at hpe
      rcases hf : table.find? (fun kv => kv.1 == normalizeText part) with _ | kv
      · rw [hf] at hpe; exact absurd hpe (by simp)
      · rw [hf] at hpe
        injection hpe with hpe
        rw [← hpe]
        exact List.mem_map.mpr ⟨kv, List.mem_of_find?_eq_some hf, rfl⟩

/-- A nonempty word-bounded pattern never matches inside the empty string. -/
theorem containsWord_nil {pat : List Char} (h : pat ≠ []) :
    containsWord pat [] = false := by
  cases pat with
  | nil => exact absurd rfl h
  | cons p ps =>
    show (List.range 1).any (matchesAt (p :: ps) []) = false
    rw [show List.range 1 = [0] from rfl]
    show (matchesAt (p :: ps) [] 0 || false) = false
    rw [Bool.or_false]
    unfold matchesAt
    rw [List.drop_nil, List.take_nil]
    rfl

/-- On every table whose keys are nonempty (true of any table built from
district names containing at least one alphanumeric character),
`_find_actual_district` coincides with the procedure as the spec words it. -/
theorem findActualDistrict_eq_spec (table : List (List Char × List Char))
    (place : List Char) (h : [] ∉ table.map Prod.fst) :
    findActualDistrict table place = findDistrictSpec table place := by
  have hkey : ∀ kv ∈ table, kv.1 ≠ ([] : List Char) := by
    intro kv hkv he
    exact h (List.mem_map.mpr ⟨kv, hkv, he⟩)
  by_cases hp : place = []
  · subst hp
    unfold findActualDistrict findDistrictSpec
    rw [if_pos rfl]
    have h1 : lookupNorm table (normalizeText ([] : List Char)) = none := by
      unfold lookupNorm
      rw [List.find?_eq_none.mpr]
      · rfl
      · intro kv hkv hbe
        exact hkey kv hkv (eq_of_beq hbe)
    have h2 : table.findSome?
        (fun kv => if containsWord kv.1 (normalizeText ([] : List Char))
                   then some kv.2 else none) = none := by
      rw [List.findSome?_eq_none_iff]
      intro kv hkv
      have hc : containsWord kv.1 (normalizeText ([] : List Char)) = false :=
        containsWord_nil (hkey kv hkv)
      simp [hc]
    rw [show splitParts ([] : List Char) = [[]] from rfl,
      List.findSome?_cons, h1, List.findSome?_nil, h2]
  · unfold findActualDistrict findDistrictSpec
    rw [if_neg hp]

/-! ## Helper lemmas for C5 -/

theorem lexLe_total (a b : List Char) : lexLe a b = true ∨ lexLe b a = true := by
  induction a generalizing b with
  | nil => left; rfl
  | cons x xs ih =>
    cases b with
    | nil => right; rfl
    | cons y ys =>
      by_cases h1 : x.toNat < y.toNat
      · left; unfold lexLe; rw [if_pos h1]
      · by_cases h2 : y.toNat < x.toNat
        · right; unfold lexLe; rw [if_pos h2]
        · rcases ih ys with h | h
          · left; unfold lexLe; rw [if_neg h1, if_neg h2]; exact h
          · right; unfold lexLe; rw [if_neg h2, if_neg h1]; exact h

theorem lexLe_trans (a b c : List Char) (hab : lexLe a b = true)
    (hbc : lexLe b c = true) : lexLe a c = true := by
  induction a generalizing b c with
  | nil => rfl
  | cons x xs ih =>
    cases b with
    | nil => exact absurd hab (by simp [lexLe])
    | cons y ys =>
      cases c with
      | nil => exact absurd hbc (by simp [lexLe])
      | cons z zs =>
        unfold lexLe at hab hbc ⊢
        by_cases hxy : x.toNat < y.toNat
        · by_cases hyz : y.toNat < z.toNat
          · rw [if_pos (lt_trans hxy hyz)]
          · by_cases hzy : z.toNat < y.toNat
            · rw [if_neg hyz, if_pos hzy] at hbc
              exact absurd hbc (by simp)
            · rw [if_pos (by omega : x.toNat < z.toNat)]
        · by_cases hyx : y.toNat < x.toNat
          · rw [if_neg hxy, if_pos hyx] at hab
            exact absurd hab (by simp)
          · rw [if_neg hxy, if_neg hyx] at hab
            by_cases hyz : y.toNat < z.toNat
            · rw [if_pos (by omega : x.toNat < z.toNat)]
            · by_cases hzy : z.toNat < y.toNat
              · rw [if_neg hyz, if_pos hzy] at hbc
                exact absurd hbc (by simp)
              · rw [if_neg hyz, if_neg hzy] at hbc
                rw [if_neg (by omega : ¬x.toNat < z.toNat),
                  if_neg (by omega : ¬z.toNat < x.toNat)]
                exact ih ys zs hab hbc

theorem sortedByKey_pairwise (kws : List (List Char)) :
    (sortedByKey kws).Pairwise
      (fun a b => lexLe (normKeyword a) (normKeyword b) = true) := by
  unfold sortedByKey
  exact List.sorted_mergeSort
    (fun a b c hab hbc =>
      lexLe_trans (normKeyword a) (normKeyword b) (normKeyword c) hab hbc)
    (fun a b => by
      rcases lexLe_total (normKeyword a) (normKeyword b) with h | h <;> simp [h])
    kws

theorem dedupByNormKey_sublist (seen : List (List Char))
    (l : List (List Char)) : (dedupByNormKey seen l).Sublist l := by
  induction l generalizing seen with
  | nil => exact List.Sublist.refl []
  | cons kw rest ih =>
    unfold dedupByNormKey
    by_cases h : (normKeyword kw == [] || seen.contains (normKeyword kw)) = true
    · rw [if_pos h]; exact (ih seen).cons kw
    · rw [if_neg h]; exact (ih _).cons₂ kw

theorem mem_dedupByNormKey {seen : List (List Char)} {l : List (List Char)}
    {kw : List Char} (h : kw ∈ dedupByNormKey seen l) :
    kw ∈ l ∧ normKeyword kw ≠ [] ∧ normKeyword kw ∉ seen := by
  induction l generalizing seen with
  | nil => simp [dedupByNormKey] at h
  | cons k rest ih =>
    unfold dedupByNormKey at h
    by_cases hc : (normKeyword k == [] || seen.contains (normKeyword k)) = true
    · rw [if_pos hc] at h
      obtain ⟨h1, h2, h3⟩ := ih h
      exact ⟨List.mem_cons_of_mem _ h1, h2, h3⟩
    · rw [if_neg hc] at h
      rw [Bool.or_eq_true, beq_iff_eq, List.elem_iff] at hc
      push_neg at hc
      rcases List.mem_cons.mp h with h' | h'
      · subst h'
        exact ⟨List.mem_cons_self _ _, hc.1, hc.2⟩
      · obtain ⟨h1, h2, h3⟩ := ih h'
        refine ⟨List.mem_cons_of_mem _ h1, h2, fun hs => h3 ?_⟩
        exact List.mem_cons_of_mem _ hs

theorem dedupByNormKey_keys_pairwise (seen : List (List Char))
    (l : List (List Char)) :
    (dedupByNormKey seen l).Pairwise
      (fun a b => normKeyword a ≠ normKeyword b) := by
  induction l generalizing seen with
  | nil => exact List.Pairwise.nil
  | cons k rest ih =>
    unfold dedupByNormKey
    by_cases hc : (normKeyword k == [] || seen.contains (normKeyword k)) = true
    · rw [if_pos hc]; exact ih seen
    · rw [if_neg hc]
      refine List.Pairwise.cons ?_ (ih _)
      intro b hb hbe
      obtain ⟨_, _, h3⟩ := mem_dedupByNormKey hb
      exact h3 (by rw [← hbe]; exact List.mem_cons_self _ _)

theorem dedupByNormKey_covers (seen : List (List Char))
    (l : List (List Char)) :
    ∀ kw ∈ l, normKeyword kw ≠ [] →
      normKeyword kw ∈ seen ∨
        ∃ kw2 ∈ dedupByNormKey seen l,
          normKeyword kw2 = normKeyword kw := by
  induction l generalizing seen with
  | nil => intro kw h; exact absurd h (List.not_mem_nil kw)
  | cons k rest ih =>
    intro kw hkw hne
    unfold dedupByNormKey
    by_cases hc : (normKeyword k == [] || seen.contains (normKeyword k)) = true
    · rw [if_pos hc]
      rcases List.mem_cons.mp hkw with he | hm
      · subst he
        rw [Bool.or_eq_true, beq_iff_eq, List.elem_iff] at hc
        rcases hc with hc | hc
        · exact absurd hc hne
        · left; exact hc
      · exact ih seen kw hm hne
    · rw [if_neg hc]
      rcases List.mem_cons.mp hkw with he | hm
      · subst he
        right; exact ⟨kw, List.mem_cons_self _ _, rfl⟩
      · rcases ih (normKeyword k :: seen) kw hm hne with hs | ⟨kw2, h1, h2⟩
        · rcases List.mem_cons.mp hs with heq | hs'
          · right; exact ⟨k, List.mem_cons_self _ _, heq.symm⟩
          · left; exact hs'
        · right; exact ⟨kw2, List.mem_cons_of_mem _ h1, h2⟩

/-! ## Helper lemmas for C3 -/

theorem mem_discoverPages_bounds {pages : ℕ → List (Option ℕ)} :
    ∀ {fuel q p : ℕ}, p ∈ discoverPages pages fuel q →
      q ≤ p ∧ p < q + fuel := by
  intro fuel
  induction fuel with
  | zero => intro q p h; simp [discoverPages] at h
  | succ n ih =>
    intro q p h
    unfold discoverPages at h
    rcases List.mem_cons.mp h with he | hm
    · subst he; omega
    · by_cases h0 : (pages q).length = 0
      · rw [if_pos h0] at hm; simp at hm
      · rw [if_neg h0] at hm
        by_cases hs : (pages q).length < PAGE_SIZE
        · rw [if_pos hs] at hm; simp at hm
        · rw [if_neg hs] at hm
          obtain ⟨h1, h2⟩ := ih hm
          omega

theorem self_mem_discoverPages (pages : ℕ → List (Option ℕ)) {fuel : ℕ}
    (h : 1 ≤ fuel) (q : ℕ) : q ∈ discoverPages pages fuel q := by
  cases fuel with
  | zero => omega
  | succ n =>
    unfold discoverPages
    exact List.mem_cons_self _ _

theorem discoverPages_continue {pages : ℕ → List (Option ℕ)} :
    ∀ {fuel q p : ℕ}, p ∈ discoverPages pages fuel q →
      (pages p).length = PAGE_SIZE → p + 1 < q + fuel →
      p + 1 ∈ discoverPages pages fuel q := by
  intro fuel
  induction fuel with
  | zero => intro q p h; simp [discoverPages] at h
  | succ n ih =>
    intro q p h hfull hf
    unfold discoverPages at h ⊢
    rcases List.mem_cons.mp h with he | hm
    · subst he
      rw [if_neg (by rw [hfull]; decide), if_neg (by rw [hfull]; exact lt_irrefl _)]
      exact List.mem_cons_of_mem _
        (self_mem_discoverPages pages (by omega) (p + 1))
    · by_cases h0 : (pages q).length = 0
      · rw [if_pos h0] at hm; simp at hm
      · by_cases hs : (pages q).length < PAGE_SIZE
        · rw [if_neg h0, if_pos hs] at hm; simp at hm
        · rw [if_neg h0, if_neg hs] at hm
          rw [if_neg h0, if_neg hs]
          exact List.mem_cons_of_mem _ (ih hm hfull (by omega))

theorem discoverPages_stop {pages : ℕ → List (Option ℕ)} :
    ∀ {fuel q p : ℕ}, p ∈ discoverPages pages fuel q →
      (pages p).length < PAGE_SIZE →
      ∀ r, p < r → r ∉ discoverPages pages fuel q := by
  intro fuel
  induction fuel with
  | zero => intro q p h; simp [discoverPages] at h
  | succ n ih =>
    intro q p h hshort r hr hmem
    unfold discoverPages at h hmem
    rcases List.mem_cons.mp h with he | hm
    · subst he
      rcases List.mem_cons.mp hmem with he' | hm'
      · omega
      · by_cases h0 : (pages p).length = 0
        · rw [if_pos h0] at hm'; simp at hm'
        · rw [if_neg h0, if_pos hshort] at hm'; simp at hm'
    · by_cases h0 : (pages q).length = 0
      · rw [if_pos h0] at hm; simp at hm
      · by_cases hs : (pages q).length < PAGE_SIZE
        · rw [if_neg h0, if_pos hs] at hm; simp at hm
        · rw [if_neg h0, if_neg hs] at hm
          rcases List.mem_cons.mp hmem with he' | hm'
          · obtain ⟨hb, _⟩ := mem_discoverPages_bounds hm
            omega
          · rw [if_neg h0, if_neg hs] at hm'
            exact ih hm hshort r hr hm'

/-! ## Helper lemmas for C6 (and the row order of `save_to_csv`) -/

theorem optKeyLe_total (a b : Option ℕ) :
    optKeyLe a b = true ∨ optKeyLe b a = true := by
  cases a with
  | none => cases b with
    | none => left; rfl
    | some y => right; rfl
  | some x => cases b with
    | none => left; rfl
    | some y =>
      by_cases h : y ≤ x
      · left; exact decide_eq_true h
      · right; exact decide_eq_true (by omega)

theorem rowLe_total (a b : ReportRecord) :
    rowLe a b = true ∨ rowLe b a = true :=
  optKeyLe_total _ _

theorem optKeyLe_trans (a b c : Option ℕ) (hab : optKeyLe a b = true)
    (hbc : optKeyLe b c = true) : optKeyLe a c = true := by
  cases a <;> cases b <;> cases c
  · rfl
  · exact absurd hbc (by simp [optKeyLe])
  · exact absurd hab (by simp [optKeyLe])
  · exact absurd hab (by simp [optKeyLe])
  · rfl
  · exact absurd hbc (by simp [optKeyLe])
  · rfl
  · exact decide_eq_true
      (le_trans (of_decide_eq_true hbc) (of_decide_eq_true hab))

theorem rowLe_trans (a b c : ReportRecord) (hab : rowLe a b = true)
    (hbc : rowLe b c = true) : rowLe a c = true :=
  optKeyLe_trans _ _ _ hab hbc

theorem sortRows_perm (rows : List ReportRecord) :
    (sortRows rows).Perm rows :=
  List.mergeSort_perm rows rowLe

theorem sortRows_pairwise (rows : List ReportRecord) :
    (sortRows rows).Pairwise (fun a b => rowLe a b = true) :=
  List.sorted_mergeSort (fun a b c hab hbc => rowLe_trans a b c hab hbc)
    (fun a b => by rcases rowLe_total a b with h | h <;> simp [h]) rows

theorem mem_dropDupAux {seen : List (List Char)} {l : List ReportRecord}
    {r : ReportRecord} (h : r ∈ dropDupAux seen l) :
    r ∈ l ∧ r.idContrato ∉ seen := by
  induction l generalizing seen with
  | nil => simp [dropDupAux] at h
  | cons x rs ih =>
    unfold dropDupAux at h
    by_cases hc : (seen.contains x.idContrato) = true
    · rw [if_pos hc] at h
      obtain ⟨h1, h2⟩ := ih h
      exact ⟨List.mem_cons_of_mem _ h1, h2⟩
    · rw [if_neg hc] at h
      rw [List.elem_iff] at hc
      rcases List.mem_cons.mp h with he | hm
      · subst he; exact ⟨List.mem_cons_self _ _, hc⟩
      · obtain ⟨h1, h2⟩ := ih hm
        exact ⟨List.mem_cons_of_mem _ h1,
          fun hs => h2 (List.mem_cons_of_mem _ hs)⟩

theorem dropDupAux_first (seen : List (List Char)) (l : List ReportRecord) :
    ∀ r ∈ dropDupAux seen l,
      l.find? (fun x => x.idContrato == r.idContrato) = some r := by
  induction l generalizing seen with
  | nil => intro r h; simp [dropDupAux] at h
  | cons x rs ih =>
    intro r h
    unfold dropDupAux at h
    by_cases hc : (seen.contains x.idContrato) = true
    · rw [if_pos hc] at h
      have hmem := mem_dropDupAux h
      have hne : ¬ (x.idContrato == r.idContrato) = true := by
        rw [beq_iff_eq]
        intro he
        exact hmem.2 (by rw [← he]; exact List.elem_iff.mp hc)
      rw [@List.find?_cons_of_neg _ (fun y => y.idContrato == r.idContrato)
        x rs hne]
      exact ih seen r h
    · rw [if_neg hc] at h
      rcases List.mem_cons.mp h with he | hm
      · subst he
        exact List.find?_cons_of_pos _ (by rw [beq_iff_eq])
      · have hmem := mem_dropDupAux hm
        have hne : ¬ (x.idContrato == r.idContrato) = true := by
          rw [beq_iff_eq]
          intro he
          exact hmem.2 (by rw [← he]; exact List.mem_cons_self _ _)
        rw [@List.find?_cons_of_neg _ (fun y => y.idContrato == r.idContrato)
          x rs hne]
        exact ih _ r hm

theorem dropDupAux_ids_pairwise (seen : List (List Char))
    (l : List ReportRecord) :
    (dropDupAux seen l).Pairwise
      (fun a b => a.idContrato ≠ b.idContrato) := by
  induction l generalizing seen with
  | nil => exact List.Pairwise.nil
  | cons x rs ih =>
    unfold dropDupAux
    by_cases hc : (seen.contains x.idContrato) = true
    · rw [if_pos hc]; exact ih seen
    · rw [if_neg hc]
      refine List.Pairwise.cons ?_ (ih _)
      intro b hb he
      exact (mem_dropDupAux hb).2 (by rw [← he]; exact List.mem_cons_self _ _)

theorem dropDupAux_covers (seen : List (List Char)) (l : List ReportRecord) :
    ∀ r ∈ l, r.idContrato ∈ seen ∨
      ∃ r2 ∈ dropDupAux seen l, r2.idContrato = r.idContrato := by
  induction l generalizing seen with
  | nil => intro r h; exact absurd h (List.not_mem_nil r)
  | cons x rs ih =>
    intro r hr
    unfold dropDupAux
    by_cases hc : (seen.contains x.idContrato) = true
    · rw [if_pos hc]
      rcases List.mem_cons.mp hr with he | hm
      · subst he; left; exact List.elem_iff.mp hc
      · exact ih seen r hm
    · rw [if_neg hc]
      rcases List.mem_cons.mp hr with he | hm
      · subst he; right; exact ⟨r, List.mem_cons_self _ _, rfl⟩
      · rcases ih (x.idContrato :: seen) r hm with hs | ⟨r2, h1, h2⟩
        · rcases List.mem_cons.mp hs with heq | hs'
          · right; exact ⟨x, List.mem_cons_self _ _, heq.symm⟩
          · left; exact hs'
        · right; exact ⟨r2, List.mem_cons_of_mem _ h1, h2⟩

/-! ## Helper lemmas for C8 -/

theorem rlRun_snd (T : ℚ) (now jit : ℕ → ℚ) (hT : 0 < T) (n : ℕ) :
    (rlRun T now jit n).2 = (rlRun T now jit n).1 := by
  cases n with
  | zero =>
    simp only [rlRun]
    unfold waitStep
    rw [if_neg (not_le.mpr hT)]
  | succ k =>
    simp only [rlRun]
    unfold waitStep
    rw [if_neg (not_le.mpr hT)]

theorem rl_step (T : ℚ) (now jit : ℕ → ℚ) (k : ℕ) (hT : 0 < T)
    (hj : 0 ≤ jit (k + 1)) :
    completionTime T now jit k + T ≤ completionTime T now jit (k + 1) := by
  unfold completionTime
  have hsnd := rlRun_snd T now jit hT k
  show _ ≤ (rlRun T now jit (k + 1)).1
  simp only [rlRun]
  rw [hsnd]
  unfold waitStep
  rw [if_neg (not_le.mpr hT)]
  have hmax : T - (now (k + 1) - (rlRun T now jit k).1) ≤
      max 0 (T - (now (k + 1) - (rlRun T now jit k).1)) := le_max_right _ _
  show (rlRun T now jit k).1 + T ≤
    now (k + 1) + (max 0 (T - (now (k + 1) - (rlRun T now jit k).1))
      + jit (k + 1))
  linarith

end Scraper

/-- C1: for every input string, `_find_actual_district` over the table built
from the configured district names returns either one of the configured
canonical district names or the empty string; it is a total function (never
raises) and never returns a name outside the configured set. -/
theorem C1_findActualDistrict_total_and_in_configured_set
    (names : List (List Char)) (place : List Char) :
    Scraper.findActualDistrict (Scraper.mkNormalizedDistricts names) place = []
      ∨ Scraper.findActualDistrict (Scraper.mkNormalizedDistricts names) place
          ∈ names := by
  rcases Scraper.findActualDistrict_mem_values
      (Scraper.mkNormalizedDistricts names) place with h | h
  · left; exact h
  · right
    obtain ⟨kv, hkv, hkve⟩ := List.mem_map.mp h
    rw [← hkve]
    exact Scraper.snd_mem_of_mem_mkNormalizedDistricts hkv

/-- C4: `_find_actual_district` first splits on comma/semicolon/slash/pipe
and returns immediately the canonical name for the first fragment whose
normalization is an exact key of the district table; only if no fragment
matches exactly does it fall back to a bounded whole-word search of the
normalized whole string over the table entries in order; if neither step
matches it returns the empty string.  Stated as equality with
`findDistrictSpec`, the literal transcription of that description, for every
table with nonempty keys. -/
theorem C4_findActualDistrict_matches_spec
    (table : List (List Char × List Char)) (place : List Char)
    (h : [] ∉ table.map Prod.fst) :
    Scraper.findActualDistrict table place =
      Scraper.findDistrictSpec table place :=
  Scraper.findActualDistrict_eq_spec table place h

theorem C4_findActualDistrict_matches_spec_witness :
    ([] ∉ Scraper.districtTableConfig.map Prod.fst) ∧
      Scraper.findActualDistrict Scraper.districtTableConfig
          ("Aveiro, Ílhavo".data) =
        Scraper.findDistrictSpec Scraper.districtTableConfig
          ("Aveiro, Ílhavo".data) :=
  ⟨by decide, C4_findActualDistrict_matches_spec Scraper.districtTableConfig
    ("Aveiro, Ílhavo".data) (by decide)⟩

/-- C2: price parsing maps `"1.234,56 €"` to `1234.56` and `"0"` to `0`, and
maps the empty string and unparseable text to the absent value `none`
(NaN under `errors='coerce'`), never to `0`. -/
theorem C2_price_parsing_examples :
    Scraper.parsePrice "1.234,56 €".data = some ((123456 : ℚ) / 100) ∧
    Scraper.parsePrice "0".data = some 0 ∧
    Scraper.parsePrice "".data = none ∧
    Scraper.parsePrice "N/A".data = none ∧
    Scraper.parsePrice "sem valor".data = none ∧
    Scraper.parsePrice "12,34,56".data = none := by
  refine ⟨?_, ?_, rfl, rfl, rfl, rfl⟩
  · rw [show Scraper.parsePrice "1.234,56 €".data =
        some ((1234 : ℚ) + (56 : ℚ) / (10 : ℚ) ^ 2) from rfl]
    norm_num
  · rw [show Scraper.parsePrice "0".data =
        some ((0 : ℚ) + (0 : ℚ) / (10 : ℚ) ^ 0) from rfl]
    norm_num

/-- C9: when the detail payload has no `initialContractualPrice` field, the
default raw string `'0'` is parsed, so the stored value is `0` (not `none`):
a missing price field is indistinguishable from a zero price. -/
theorem C9_missing_price_equals_zero_price :
    Scraper.contractValue none = some 0 ∧
      Scraper.contractValue none = Scraper.contractValue (some "0".data) := by
  refine ⟨?_, rfl⟩
  rw [show Scraper.contractValue none =
      some ((0 : ℚ) + (0 : ℚ) / (10 : ℚ) ^ 0) from rfl]
  norm_num

/-- C5: the matched-keywords field is built from one representative keyword
per distinct nonempty normalized form, sorted by normalized form
(lexicographic code-point order on the normalized keys), joined with the
fixed separator `' | '`; two keyword variants with the same normalization
contribute a single entry. -/
theorem C5_join_unique_keywords_dedup_sorted (kws : List (List Char)) :
    Scraper.joinUniqueKeywords kws =
        List.intercalate " | ".data (Scraper.joinUniqueList kws) ∧
      (Scraper.joinUniqueList kws).Pairwise
        (fun a b =>
          Scraper.lexLe (Scraper.normKeyword a) (Scraper.normKeyword b)
            = true) ∧
      (Scraper.joinUniqueList kws).Pairwise
        (fun a b => Scraper.normKeyword a ≠ Scraper.normKeyword b) ∧
      (∀ kw ∈ Scraper.joinUniqueList kws,
        kw ∈ kws ∧ Scraper.normKeyword kw ≠ []) ∧
      (∀ kw ∈ kws, Scraper.normKeyword kw ≠ [] →
        ∃ kw2 ∈ Scraper.joinUniqueList kws,
          Scraper.normKeyword kw2 = Scraper.normKeyword kw) := by
  refine ⟨rfl, ?_, ?_, ?_, ?_⟩
  · exact List.Pairwise.sublist
      (Scraper.dedupByNormKey_sublist [] (Scraper.sortedByKey kws))
      (Scraper.sortedByKey_pairwise kws)
  · exact Scraper.dedupByNormKey_keys_pairwise [] (Scraper.sortedByKey kws)
  · intro kw hkw
    obtain ⟨h1, h2, _⟩ := Scraper.mem_dedupByNormKey hkw
    exact ⟨List.mem_mergeSort.mp h1, h2⟩
  · intro kw hkw hne
    rcases Scraper.dedupByNormKey_covers [] (Scraper.sortedByKey kws) kw
        (List.mem_mergeSort.mpr hkw) hne with hs | h
    · exact absurd hs (List.not_mem_nil _)
    · exact h

theorem C5_join_unique_keywords_dedup_sorted_witness :
    Scraper.joinUniqueKeywords
        ["Smart City".data, "smart  city".data, "GIS".data, "---".data] =
        List.intercalate " | ".data
          (Scraper.joinUniqueList
            ["Smart City".data, "smart  city".data, "GIS".data, "---".data]) ∧
      (Scraper.joinUniqueList
          ["Smart City".data, "smart  city".data, "GIS".data, "---".data]).Pairwise
        (fun a b =>
          Scraper.lexLe (Scraper.normKeyword a) (Scraper.normKeyword b)
            = true) ∧
      (Scraper.joinUniqueList
          ["Smart City".data, "smart  city".data, "GIS".data, "---".data]).Pairwise
        (fun a b => Scraper.normKeyword a ≠ Scraper.normKeyword b) ∧
      (∀ kw ∈ Scraper.joinUniqueList
          ["Smart City".data, "smart  city".data, "GIS".data, "---".data],
        kw ∈ ["Smart City".data, "smart  city".data, "GIS".data, "---".data] ∧
          Scraper.normKeyword kw ≠ []) ∧
      (∀ kw ∈ ["Smart City".data, "smart  city".data, "GIS".data, "---".data],
        Scraper.normKeyword kw ≠ [] →
        ∃ kw2 ∈ Scraper.joinUniqueList
            ["Smart City".data, "smart  city".data, "GIS".data, "---".data],
          Scraper.normKeyword kw2 = Scraper.normKeyword kw) :=
  C5_join_unique_keywords_dedup_sorted
    ["Smart City".data, "smart  city".data, "GIS".data, "---".data]

/-- C3: with page size 100, whenever a requested page's response contains
exactly 100 items the next page is requested (within the loop bound), and
whenever a requested page's response contains strictly fewer than 100 items
no later page is requested for that (keyword, district) pair. -/
theorem C3_pagination_termination (pages : ℕ → List (Option ℕ))
    (fuel p : ℕ) (hreq : p ∈ Scraper.discoverPages pages fuel 0) :
    ((pages p).length = Scraper.PAGE_SIZE → p + 1 < fuel →
      p + 1 ∈ Scraper.discoverPages pages fuel 0) ∧
    ((pages p).length < Scraper.PAGE_SIZE →
      ∀ r, p < r → r ∉ Scraper.discoverPages pages fuel 0) :=
  ⟨fun hfull hf =>
    Scraper.discoverPages_continue hreq hfull (by omega),
   fun hshort r hr => Scraper.discoverPages_stop hreq hshort r hr⟩

theorem C3_pagination_termination_witness :
    (0 ∈ Scraper.discoverPages Scraper.pagesWitness 3 0 ∧
      (Scraper.pagesWitness 0).length = Scraper.PAGE_SIZE ∧ 0 + 1 < 3 ∧
      0 + 1 ∈ Scraper.discoverPages Scraper.pagesWitness 3 0) ∧
    (1 ∈ Scraper.discoverPages Scraper.pagesWitness 3 0 ∧
      (Scraper.pagesWitness 1).length < Scraper.PAGE_SIZE ∧
      2 ∉ Scraper.discoverPages Scraper.pagesWitness 3 0) :=
  ⟨⟨by decide, by decide, by decide,
    (C3_pagination_termination Scraper.pagesWitness 3 0 (by decide)).1
      (by decide) (by decide)⟩,
   ⟨by decide, by decide,
    (C3_pagination_termination Scraper.pagesWitness 3 1 (by decide)).2
      (by decide) 2 (by decide)⟩⟩

/-- C6: in the final output row set every contract identifier occurs in
exactly one row: after `save_to_csv`'s dedup pass no two rows share the same
`'ID Contrato'` value, the retained row for an id is the first occurrence in
the input, and every input id is represented.  (The subsequent sort only
permutes the rows.) -/
theorem C6_output_ids_unique (data : List Scraper.ReportRecord)
    (file : Scraper.CsvFile) (h : Scraper.saveToCsv data = some file) :
    file.rows.Pairwise (fun a b => a.idContrato ≠ b.idContrato) ∧
      (∀ r ∈ file.rows, r ∈ data ∧
        data.find? (fun x => x.idContrato == r.idContrato) = some r) ∧
      (∀ r ∈ data, ∃ r2 ∈ file.rows, r2.idContrato = r.idContrato) := by
  unfold Scraper.saveToCsv at h
  by_cases hd : data = []
  · rw [if_pos hd] at h
    exact absurd h (by simp)
  · rw [if_neg hd] at h
    injection h with h
    subst h
    refine ⟨?_, ?_, ?_⟩
    · exact (List.Perm.pairwise_iff (fun hxy h' => hxy h'.symm)
        (Scraper.sortRows_perm (Scraper.dropDuplicatesById data))).mpr
        (Scraper.dropDupAux_ids_pairwise [] data)
    · intro r hr
      have hr' : r ∈ Scraper.dropDuplicatesById data :=
        List.mem_mergeSort.mp hr
      exact ⟨(Scraper.mem_dropDupAux hr').1,
        Scraper.dropDupAux_first [] data r hr'⟩
    · intro r hr
      rcases Scraper.dropDupAux_covers [] data r hr with hs | ⟨r2, h1, h2⟩
      · exact absurd hs (List.not_mem_nil _)
      · exact ⟨r2, List.mem_mergeSort.mpr h1, h2⟩

theorem C6_output_ids_unique_witness :
    (Scraper.saveToCsv [Scraper.recordW1, Scraper.recordW2] =
        some ⟨Scraper.csvHeaders, [Scraper.recordW1]⟩) ∧
      ((⟨Scraper.csvHeaders, [Scraper.recordW1]⟩ :
            Scraper.CsvFile).rows.Pairwise
          (fun a b => a.idContrato ≠ b.idContrato) ∧
        (∀ r ∈ (⟨Scraper.csvHeaders, [Scraper.recordW1]⟩ :
            Scraper.CsvFile).rows,
          r ∈ [Scraper.recordW1, Scraper.recordW2] ∧
            [Scraper.recordW1, Scraper.recordW2].find?
              (fun x => x.idContrato == r.idContrato) = some r) ∧
        (∀ r ∈ [Scraper.recordW1, Scraper.recordW2],
          ∃ r2 ∈ (⟨Scraper.csvHeaders, [Scraper.recordW1]⟩ :
              Scraper.CsvFile).rows,
            r2.idContrato = r.idContrato)) := by
  have hsave : Scraper.saveToCsv [Scraper.recordW1, Scraper.recordW2] =
      some ⟨Scraper.csvHeaders, [Scraper.recordW1]⟩ := by
    unfold Scraper.saveToCsv
    rw [if_neg (by decide)]
    rw [show Scraper.dropDuplicatesById [Scraper.recordW1, Scraper.recordW2] =
        [Scraper.recordW1] from by decide]
    unfold Scraper.sortRows
    rw [List.mergeSort_singleton]
  exact ⟨hsave, C6_output_ids_unique _ _ hsave⟩

/-- C10: with an empty record list, `save_to_csv` returns (after only a log
warning) without creating any output file — not even a header-only one —
whereas every nonempty record list produces a file with the fixed header. -/
theorem C10_empty_data_no_file :
    Scraper.saveToCsv [] = none ∧
      ∀ data : List Scraper.ReportRecord, data ≠ [] →
        ∃ f, Scraper.saveToCsv data = some f ∧
          f.header = Scraper.csvHeaders := by
  refine ⟨rfl, ?_⟩
  intro data hd
  unfold Scraper.saveToCsv
  rw [if_neg hd]
  exact ⟨_, rfl, rfl⟩

theorem C10_empty_data_no_file_witness :
    Scraper.saveToCsv [] = none ∧
      ([Scraper.recordW1] ≠ ([] : List Scraper.ReportRecord) ∧
        ∃ f, Scraper.saveToCsv [Scraper.recordW1] = some f ∧
          f.header = Scraper.csvHeaders) :=
  ⟨C10_empty_data_no_file.1,
   by decide,
   C10_empty_data_no_file.2 [Scraper.recordW1] (by decide)⟩

/-- C8: for every `N ≥ 1` and every rate limiter with positive minimum
interval `T` on a single label, across `N` consecutive `wait()` calls on the
instance the elapsed time from the first call's completion to the last
call's completion is at least `(N - 1) * T`, for every clock oracle of a
monotonic clock (each call starts no earlier than the previous completion)
and every nonnegative jitter draw. -/
theorem C8_rate_limiter_minimum_spacing (T : ℚ) (now jit : ℕ → ℚ) (N : ℕ)
    (hT : 0 < T) (hjit : ∀ i < N, 0 ≤ jit i)
    (hmono : ∀ n, n + 1 < N →
      Scraper.completionTime T now jit n ≤ now (n + 1))
    (hN : 1 ≤ N) :
    ((N : ℚ) - 1) * T ≤
      Scraper.completionTime T now jit (N - 1) -
        Scraper.completionTime T now jit 0 := by
  have key : ∀ m, m < N →
      Scraper.completionTime T now jit 0 + (m : ℚ) * T ≤
        Scraper.completionTime T now jit m := by
    intro m
    induction m with
    | zero => intro _; simp
    | succ k ih =>
      intro hk
      have h1 := ih (by omega)
      have h2 := Scraper.rl_step T now jit k hT (hjit (k + 1) (by omega))
      have h3 : ((k + 1 : ℕ) : ℚ) * T = (k : ℚ) * T + T := by
        push_cast; ring
      linarith
  have hfin := key (N - 1) (by omega)
  have hcast : (((N - 1 : ℕ)) : ℚ) = (N : ℚ) - 1 := by
    push_cast [Nat.cast_sub hN]
    ring
  rw [hcast] at hfin
  linarith

theorem completionTimeW_zero :
    Scraper.completionTime 3 Scraper.nowW Scraper.jitW 0 = 3 := by
  unfold Scraper.completionTime
  simp only [Scraper.rlRun]
  unfold Scraper.waitStep Scraper.nowW Scraper.jitW
  rw [if_neg (by norm_num : ¬ (3 : ℚ) ≤ 0)]
  norm_num

theorem rlW_mono : ∀ n, n + 1 < 2 →
    Scraper.completionTime 3 Scraper.nowW Scraper.jitW n ≤
      Scraper.nowW (n + 1) := by
  intro n hn
  have h0 : n = 0 := by omega
  subst h0
  rw [completionTimeW_zero]
  unfold Scraper.nowW
  norm_num

theorem C8_rate_limiter_minimum_spacing_witness :
    ((0 : ℚ) < 3 ∧ (∀ i < 2, 0 ≤ Scraper.jitW i) ∧
      (∀ n, n + 1 < 2 →
        Scraper.completionTime 3 Scraper.nowW Scraper.jitW n ≤
          Scraper.nowW (n + 1)) ∧ 1 ≤ 2) ∧
      (((2 : ℕ) : ℚ) - 1) * 3 ≤
        Scraper.completionTime 3 Scraper.nowW Scraper.jitW (2 - 1) -
          Scraper.completionTime 3 Scraper.nowW Scraper.jitW 0 :=
  ⟨⟨zero_lt_three, fun _ _ => le_refl 0, rlW_mono, by decide⟩,
   C8_rate_limiter_minimum_spacing 3 Scraper.nowW Scraper.jitW 2
     zero_lt_three (fun _ _ => le_refl 0) rlW_mono (by decide)⟩
